import Mathlib

/-!
# Verification of the Week3 tree-based-classifier specification

The Week3 notebook is a linear sequence of scikit-learn library calls
(one-hot encoding, train/test split, standardization, decision-tree and
random-forest classification, accuracy and macro-F1 reporting).  The
algorithms themselves live in the external library, not in the repository;
the specification describes them at design level (its sections 3, 4, 6
and 7).  The definitions below are therefore modelled from the spec's
words, as a shallow embedding over exact rational arithmetic, and the
theorems settle the spec's claims against that model.
-/

namespace Week3

/-- Modelled from the spec: a Sample is a fixed-length ordered sequence of
numeric feature values plus one categorical label (labels are encoded as
naturals; the fixed deterministic class ordering is the numeric order). -/
structure Sample where
  features : List ℚ
  label : ℕ
deriving DecidableEq, Repr

/-- Modelled from the spec: a tree Node is either a leaf holding a predicted
label, or an internal node holding a split feature index, a split threshold,
and two child nodes (left: feature value at the index is at most the
threshold; right: strictly greater). -/
inductive Node where
  | leaf (label : ℕ)
  | internal (splitIndex : ℕ) (threshold : ℚ) (left right : Node)
deriving DecidableEq, Repr

/-- The feature value of a sample at index `f` (0 outside the vector;
the spec's UnknownFeatureIndex case is a defensive check that never fires
on well-formed trees). -/
def featVal (s : Sample) (f : ℕ) : ℚ :=
  s.features.getD f 0

/-- Modelled from the spec: Gini impurity of a multiset of labels,
`Gini(S) = 1 - Σ_c p_c²` where `p_c` is the fraction of class `c` in `S`,
the sum ranging over the classes present. -/
def giniImpurity (ls : List ℕ) : ℚ :=
  1 - ((ls.dedup.map (fun c => ((ls.count c : ℚ) / ls.length) ^ 2)).sum)

/-- Left partition of a node's sample subset under candidate split
`(f, t)`: the samples whose feature `f` is at most `t`. -/
def splitLeft (S : List Sample) (f : ℕ) (t : ℚ) : List Sample :=
  S.filter (fun s => featVal s f ≤ t)

/-- Right partition: the samples whose feature `f` is strictly above `t`. -/
def splitRight (S : List Sample) (f : ℕ) (t : ℚ) : List Sample :=
  S.filter (fun s => t < featVal s f)

/-- Modelled from the spec: the weighted impurity
`(|L|/|S|)·Gini(L) + (|R|/|S|)·Gini(R)` of the partition induced by the
candidate split `(f, t)` on the subset `S`. -/
def weightedGini (S : List Sample) (f : ℕ) (t : ℚ) : ℚ :=
  ((splitLeft S f t).length : ℚ) / S.length
      * giniImpurity ((splitLeft S f t).map Sample.label)
    + ((splitRight S f t).length : ℚ) / S.length
      * giniImpurity ((splitRight S f t).map Sample.label)

/-- Modelled from the spec: for a candidate feature, every distinct value
present is a candidate threshold, in ascending order; a threshold is kept
only when some sample lies strictly above it (otherwise the split leaves
one side empty and is no valid split). -/
def candThresholds (S : List Sample) (f : ℕ) : List ℚ :=
  (((S.map (fun s => featVal s f)).dedup).insertionSort (· ≤ ·)).filter
    (fun t => S.any (fun s => t < featVal s f))

/-- Modelled from the spec: the candidate `(feature, threshold)` pairs, in
order of ascending feature index then ascending threshold (the candidate
feature indices form a set, so duplicates are dropped). -/
def candidates (S : List Sample) (feats : List ℕ) : List (ℕ × ℚ) :=
  (feats.dedup.insertionSort (· ≤ ·)).flatMap
    (fun f => (candThresholds S f).map (fun t => (f, t)))

/-- First element of the list minimizing the score: later elements replace
the current best only when strictly better, so ties are broken by the
first-encountered candidate. -/
def firstMinBy (score : α → ℚ) : List α → Option α
  | [] => none
  | a :: l =>
    match firstMinBy score l with
    | none => some a
    | some b => if score a ≤ score b then some a else some b

/-- First element of the list maximizing the weight: later elements replace
the current best only when strictly heavier, so ties are broken by the
earliest element. -/
def firstMaxBy (w : α → ℕ) : List α → Option α
  | [] => none
  | a :: l =>
    match firstMaxBy w l with
    | none => some a
    | some b => if w b ≤ w a then some a else some b

/-- Modelled from the spec: the Splitter.  Returns no valid split when all
samples share one label or fewer than 2 samples remain; otherwise selects
the candidate split minimizing the weighted Gini impurity, ties broken by
first-encountered (feature index ascending, then threshold ascending). -/
def bestSplit (S : List Sample) (feats : List ℕ) : Option (ℕ × ℚ) :=
  if S.length < 2 ∨ (S.map Sample.label).dedup.length ≤ 1 then none
  else firstMinBy (fun c => weightedGini S c.1 c.2) (candidates S feats)

theorem splitLeft_length_add_splitRight_length (S : List Sample) (f : ℕ) (t : ℚ) :
    (splitLeft S f t).length + (splitRight S f t).length = S.length := by
  induction S with
  | nil => rfl
  | cons s S ih =>
    by_cases h : featVal s f ≤ t
    · simp only [splitLeft, splitRight, List.filter_cons] at *
      simp [h, not_lt.mpr h]
      omega
    · simp only [splitLeft, splitRight, List.filter_cons] at *
      simp [h, not_le.mp h]
      omega

theorem firstMinBy_mem {score : α → ℚ} {l : List α} {a : α}
    (h : firstMinBy score l = some a) : a ∈ l := by
  induction l with
  | nil => simp [firstMinBy] at h
  | cons b l ih =>
    rw [firstMinBy] at h
    match hl : firstMinBy score l with
    | none => rw [hl] at h; simp at h; simp [h]
    | some c =>
      rw [hl] at h
      by_cases hc : score b ≤ score c
      · simp [hc] at h; simp [h]
      · simp [hc] at h; subst h; exact List.mem_cons_of_mem _ (ih hl)

theorem mem_candThresholds {S : List Sample} {f : ℕ} {t : ℚ}
    (h : t ∈ candThresholds S f) :
    (∃ s ∈ S, featVal s f = t) ∧ ∃ s ∈ S, t < featVal s f := by
  rw [candThresholds, List.mem_filter] at h
  obtain ⟨hmem, hany⟩ := h
  rw [(List.perm_insertionSort _ _).mem_iff, List.mem_dedup, List.mem_map] at hmem
  obtain ⟨s, hs, hval⟩ := hmem
  refine ⟨⟨s, hs, hval⟩, ?_⟩
  rw [List.any_eq_true] at hany
  obtain ⟨s', hs', hlt⟩ := hany
  exact ⟨s', hs', by simpa using hlt⟩

theorem mem_candidates {S : List Sample} {feats : List ℕ} {f : ℕ} {t : ℚ}
    (h : (f, t) ∈ candidates S feats) :
    (∃ s ∈ S, featVal s f = t) ∧ ∃ s ∈ S, t < featVal s f := by
  rw [candidates, List.mem_flatMap] at h
  obtain ⟨f', _, hmem⟩ := h
  rw [List.mem_map] at hmem
  obtain ⟨t', ht', heq⟩ := hmem
  obtain ⟨rfl, rfl⟩ : f' = f ∧ t' = t := Prod.mk.injEq _ _ _ _ ▸ heq
  exact mem_candThresholds ht'

theorem splitLeft_ne_nil {S : List Sample} {feats : List ℕ} {f : ℕ} {t : ℚ}
    (h : (f, t) ∈ candidates S feats) : splitLeft S f t ≠ [] := by
  obtain ⟨⟨s, hs, hval⟩, _⟩ := mem_candidates h
  have : s ∈ splitLeft S f t := by
    rw [splitLeft, List.mem_filter]
    exact ⟨hs, by simp [hval]⟩
  exact List.ne_nil_of_mem this

theorem splitRight_ne_nil {S : List Sample} {feats : List ℕ} {f : ℕ} {t : ℚ}
    (h : (f, t) ∈ candidates S feats) : splitRight S f t ≠ [] := by
  obtain ⟨_, s, hs, hlt⟩ := mem_candidates h
  have : s ∈ splitRight S f t := by
    rw [splitRight, List.mem_filter]
    exact ⟨hs, by simp [hlt]⟩
  exact List.ne_nil_of_mem this

theorem bestSplit_mem_candidates {S : List Sample} {feats : List ℕ} {f : ℕ} {t : ℚ}
    (h : bestSplit S feats = some (f, t)) : (f, t) ∈ candidates S feats := by
  rw [bestSplit] at h
  split at h
  · exact absurd h (by simp)
  · exact firstMinBy_mem h

theorem bestSplit_shrinks {S : List Sample} {feats : List ℕ} {f : ℕ} {t : ℚ}
    (h : bestSplit S feats = some (f, t)) :
    (splitLeft S f t).length < S.length ∧ (splitRight S f t).length < S.length := by
  have hc := bestSplit_mem_candidates h
  have hsum := splitLeft_length_add_splitRight_length S f t
  have hL : 0 < (splitLeft S f t).length :=
    List.length_pos.mpr (splitLeft_ne_nil hc)
  have hR : 0 < (splitRight S f t).length :=
    List.length_pos.mpr (splitRight_ne_nil hc)
  omega

/-- Modelled from the spec: majority label of a subset, ties broken by the
first class label in sorted order. -/
def majorityLabel (ls : List ℕ) : ℕ :=
  (firstMaxBy (fun c => ls.count c) (ls.dedup.insertionSort (· ≤ ·))).getD 0

/-- Modelled from the spec: the recursive tree builder.  Asks the Splitter
for a split; if none is found the node becomes a leaf labeled with the
majority class of the subset; otherwise it becomes an internal node whose
children are built from the left/right partitions. -/
def buildTree (feats : List ℕ) (S : List Sample) : Node :=
  match h : bestSplit S feats with
  | none => .leaf (majorityLabel (S.map Sample.label))
  | some (f, t) =>
    .internal f t (buildTree feats (splitLeft S f t))
      (buildTree feats (splitRight S f t))
termination_by S.length
decreasing_by
  · exact (bestSplit_shrinks h).1
  · exact (bestSplit_shrinks h).2

/-- Modelled from the spec: the Predictor.  Traverse from the root; at each
internal node follow the left child exactly when the feature value at the
split index is at most the threshold, else the right child; return the
label of the leaf reached. -/
def predict (n : Node) (x : List ℚ) : ℕ :=
  match n with
  | .leaf l => l
  | .internal f t L R => if x.getD f 0 ≤ t then predict L x else predict R x

/-- The labels of all leaves of a tree, left to right. -/
def leafLabels : Node → List ℕ
  | .leaf l => [l]
  | .internal _ _ L R => leafLabels L ++ leafLabels R

/-- Modelled from the spec: a seeded deterministic pseudo-random generator
(the spec leaves the concrete generator open; a linear congruential step is
used, which only matters through its determinism). -/
def lcg (s : ℕ) : ℕ :=
  (1103515245 * s + 12345) % 2 ^ 31

/-- One pseudo-random draw below `n`, returning the value and the new
generator state. -/
def drawNat (s n : ℕ) : ℕ × ℕ :=
  (lcg s % n, lcg s)

/-- Modelled from the spec: `k` index draws below `n` with replacement
(a bootstrap sample of indices), threading the generator state. -/
def sampleWithReplacement : ℕ → ℕ → ℕ → List ℕ × ℕ
  | 0, _, s => ([], s)
  | k + 1, n, s =>
    ((drawNat s n).1 :: (sampleWithReplacement k n (drawNat s n).2).1,
      (sampleWithReplacement k n (drawNat s n).2).2)

/-- Modelled from the spec: a pseudo-random subset of `m` elements of the
pool, drawn without replacement, threading the generator state. -/
def sampleSubset : ℕ → List ℕ → ℕ → List ℕ × ℕ
  | 0, _, s => ([], s)
  | _ + 1, [], s => ([], s)
  | m + 1, pool, s =>
    let (i, s1) := drawNat s pool.length
    let (rest, s2) := sampleSubset m (pool.eraseIdx i) s1
    (pool.getD i 0 :: rest, s2)

/-- Modelled from the spec: the tree builder in forest mode, restricted at
each split to a fresh pseudo-random subset of `m` of the `numFeats`
features, threading the generator state. -/
def buildTreeRand (numFeats m : ℕ) (S : List Sample) (s : ℕ) : Node × ℕ :=
  match h : bestSplit S (sampleSubset m (List.range numFeats) s).1 with
  | none =>
    (.leaf (majorityLabel (S.map Sample.label)),
      (sampleSubset m (List.range numFeats) s).2)
  | some (f, t) =>
    (.internal f t
        (buildTreeRand numFeats m (splitLeft S f t)
          (sampleSubset m (List.range numFeats) s).2).1
        (buildTreeRand numFeats m (splitRight S f t)
          (buildTreeRand numFeats m (splitLeft S f t)
            (sampleSubset m (List.range numFeats) s).2).2).1,
      (buildTreeRand numFeats m (splitRight S f t)
        (buildTreeRand numFeats m (splitLeft S f t)
          (sampleSubset m (List.range numFeats) s).2).2).2)
termination_by S.length
decreasing_by
  all_goals first
  | exact (bestSplit_shrinks h).1
  | exact (bestSplit_shrinks h).2

/-- Modelled from the spec: a Forest owns an ordered sequence of trees and
the fixed deterministic class ordering established at training time. -/
structure Forest where
  trees : List Node
  classes : List ℕ
deriving DecidableEq, Repr

/-- Modelled from the spec: majority vote over the member trees'
predictions, ties broken by the lowest class index in the fixed class
ordering established at training time. -/
def forestPredict (F : Forest) (x : List ℚ) : ℕ :=
  (firstMaxBy (fun c => (F.trees.map (fun n => predict n x)).count c)
    F.classes).getD 0

/-- The bootstrap resample of the data given by a list of indices. -/
def resample (data : List Sample) (idxs : List ℕ) : List Sample :=
  idxs.map (fun i => data.getD i ⟨[], 0⟩)

/-- Modelled from the spec: train `k` trees, each on a fresh bootstrap
sample of size `N = data.length`, threading the generator state. -/
def trainTrees (numFeats m : ℕ) (data : List Sample) : ℕ → ℕ → List Node × ℕ
  | 0, s => ([], s)
  | k + 1, s =>
    ((buildTreeRand numFeats m
        (resample data (sampleWithReplacement data.length data.length s).1)
        (sampleWithReplacement data.length data.length s).2).1
      :: (trainTrees numFeats m data k
          (buildTreeRand numFeats m
            (resample data (sampleWithReplacement data.length data.length s).1)
            (sampleWithReplacement data.length data.length s).2).2).1,
      (trainTrees numFeats m data k
        (buildTreeRand numFeats m
          (resample data (sampleWithReplacement data.length data.length s).1)
          (sampleWithReplacement data.length data.length s).2).2).2)

/-- Modelled from the spec: the Forest trainer.  Given the training data,
a forest size `k`, a feature-subsampling size `m` and a seed, draws `k`
bootstrap samples with the seeded deterministic generator and builds one
tree per sample; the class ordering is the sorted list of distinct
training labels. -/
def trainForest (numFeats m k seed : ℕ) (data : List Sample) : Forest :=
  { trees := (trainTrees numFeats m data k seed).1
    classes := ((data.map Sample.label).dedup).insertionSort (· ≤ ·) }

/-- Modelled from the spec: the random-forest classifier object, holding
its constructor configuration and the fitted state accumulated by `fit`
(nothing before the first fit). -/
structure RFModel where
  numFeats : ℕ
  m : ℕ
  k : ℕ
  seed : ℕ
  fitted : Option Forest
deriving DecidableEq, Repr

/-- Modelled from the spec: `fit` retrains from scratch on the given data,
replacing any previously fitted state. -/
def RFModel.fit (model : RFModel) (data : List Sample) : RFModel :=
  { model with
    fitted := some (trainForest model.numFeats model.m model.k model.seed data) }

/-- Modelled from the spec: prediction of a fitted random-forest model
(0 before the first fit). -/
def RFModel.predictWith (model : RFModel) (x : List ℚ) : ℕ :=
  match model.fitted with
  | none => 0
  | some F => forestPredict F x

/-- Modelled from the spec: `accuracy(y_true, y_pred) = (# matches) / N`,
the fraction of positions where the two label sequences agree. -/
def accuracy (yt yp : List ℕ) : ℚ :=
  (((yt.zip yp).countP (fun p => p.1 == p.2) : ℚ)) / yt.length

/-- True positives of class `c`: positions where both sequences carry `c`. -/
def tpOf (yt yp : List ℕ) (c : ℕ) : ℕ :=
  (yt.zip yp).countP (fun p => p.1 == c && p.2 == c)

/-- False positives of class `c`: positions predicted `c` but truly not `c`. -/
def fpOf (yt yp : List ℕ) (c : ℕ) : ℕ :=
  (yt.zip yp).countP (fun p => p.1 != c && p.2 == c)

/-- False negatives of class `c`: positions truly `c` but predicted not `c`. -/
def fnOf (yt yp : List ℕ) (c : ℕ) : ℕ :=
  (yt.zip yp).countP (fun p => p.1 == c && p.2 != c)

/-- Modelled from the spec: `precision_c = TP_c / (TP_c + FP_c)`, 0 when
the denominator is 0. -/
def precisionOf (yt yp : List ℕ) (c : ℕ) : ℚ :=
  if tpOf yt yp c + fpOf yt yp c = 0 then 0
  else (tpOf yt yp c : ℚ) / (tpOf yt yp c + fpOf yt yp c)

/-- Modelled from the spec: `recall_c = TP_c / (TP_c + FN_c)`, 0 when the
denominator is 0. -/
def recallOf (yt yp : List ℕ) (c : ℕ) : ℚ :=
  if tpOf yt yp c + fnOf yt yp c = 0 then 0
  else (tpOf yt yp c : ℚ) / (tpOf yt yp c + fnOf yt yp c)

/-- Modelled from the spec:
`F1_c = 2·precision_c·recall_c / (precision_c + recall_c)`, 0 when the
denominator is 0. -/
def f1Of (yt yp : List ℕ) (c : ℕ) : ℚ :=
  if precisionOf yt yp c + recallOf yt yp c = 0 then 0
  else 2 * precisionOf yt yp c * recallOf yt yp c
    / (precisionOf yt yp c + recallOf yt yp c)

/-- Modelled from the spec: the macro F1 score, the mean of `F1_c` over
the classes present in `y_true ∪ y_pred`. -/
def meanF1 (yt yp : List ℕ) : ℚ :=
  (((yt ++ yp).dedup.map (f1Of yt yp)).sum) / (yt ++ yp).dedup.length

/-- Modelled from the spec: fitting the one-hot encoder records the
distinct category values of the column, in first-seen order (the spec
allows first-seen or sorted order). -/
def fitOHE (col : List String) : List String :=
  col.dedup

/-- Modelled from the spec: one-hot encoding of a single value against the
fitted category list: a 1 in the position of the matching category and 0
everywhere else; a value matching no category yields all zeros. -/
def encodeOHE (cats : List String) (v : String) : List ℚ :=
  cats.map (fun c => if c = v then 1 else 0)

/-- The mean of a list of rationals (0 for the empty list). -/
def listMean (l : List ℚ) : ℚ :=
  l.sum / l.length

/-- The population variance of a list of rationals (0 for the empty
list). -/
def listVar (l : List ℚ) : ℚ :=
  ((l.map (fun x => (x - listMean l) ^ 2)).sum) / l.length

/-- The parameters a standard scaler learns at fit time: the training
mean and the training standard deviation of the feature. -/
structure ScalerParams where
  mean : ℚ
  std : ℚ
deriving DecidableEq, Repr

/-- Modelled from the spec: fitting the scaler on the training column
fixes its parameters: the training mean, and the training standard
deviation, i.e. the square root of the training variance.  The square
root is not rational in general, so it is abstracted as the function
argument; only its application to the training variance matters. -/
def fitScaler (sqrtFn : ℚ → ℚ) (train : List ℚ) : ScalerParams :=
  { mean := listMean train, std := sqrtFn (listVar train) }

/-- Modelled from the spec: transforming a value subtracts the fitted
mean and divides by the fitted standard deviation. -/
def transformScaler (p : ScalerParams) (x : ℚ) : ℚ :=
  (x - p.mean) / p.std

/-- Transforming a column applies the same fitted parameters, unchanged,
to every value. -/
def transformCol (p : ScalerParams) (xs : List ℚ) : List ℚ :=
  xs.map (transformScaler p)

theorem firstMinBy_eq_none {score : α → ℚ} {l : List α} :
    firstMinBy score l = none ↔ l = [] := by
  cases l with
  | nil => simp [firstMinBy]
  | cons a l =>
    simp only [firstMinBy]
    constructor
    · intro h
      cases hl : firstMinBy score l with
      | none => rw [hl] at h; simp at h
      | some b =>
        rw [hl] at h
        by_cases hc : score a ≤ score b <;> simp [hc] at h
    · intro h; exact absurd h (by simp)

theorem firstMinBy_le {score : α → ℚ} {l : List α} {a : α}
    (h : firstMinBy score l = some a) : ∀ x ∈ l, score a ≤ score x := by
  induction l generalizing a with
  | nil => simp [firstMinBy] at h
  | cons b l ih =>
    rw [firstMinBy] at h
    intro x hx
    cases hl : firstMinBy score l with
    | none =>
      rw [hl] at h
      simp only [Option.some.injEq] at h
      rw [firstMinBy_eq_none.mp hl] at hx
      simp at hx
      subst hx; subst h; exact le_refl _
    | some c =>
      rw [hl] at h
      by_cases hbc : score b ≤ score c
      · simp [hbc] at h
        subst h
        rcases List.mem_cons.mp hx with rfl | hx'
        · exact le_refl _
        · exact le_trans hbc (ih hl x hx')
      · simp [hbc] at h
        subst h
        rcases List.mem_cons.mp hx with rfl | hx'
        · exact le_of_lt (not_le.mp hbc)
        · exact ih hl x hx'

theorem firstMinBy_first {score : α → ℚ} {l : List α} {a : α}
    (h : firstMinBy score l = some a) :
    ∃ l1 l2, l = l1 ++ a :: l2 ∧ ∀ x ∈ l1, score a < score x := by
  induction l generalizing a with
  | nil => simp [firstMinBy] at h
  | cons b l ih =>
    rw [firstMinBy] at h
    cases hl : firstMinBy score l with
    | none =>
      rw [hl] at h
      simp only [Option.some.injEq] at h
      subst h
      exact ⟨[], l, rfl, by simp⟩
    | some c =>
      rw [hl] at h
      by_cases hbc : score b ≤ score c
      · simp [hbc] at h
        subst h
        exact ⟨[], l, rfl, by simp⟩
      · simp [hbc] at h
        subst h
        obtain ⟨l1, l2, hdec, hstrict⟩ := ih hl
        refine ⟨b :: l1, l2, by rw [hdec]; rfl, ?_⟩
        intro x hx
        rcases List.mem_cons.mp hx with rfl | hx'
        · exact not_le.mp hbc
        · exact hstrict x hx'

theorem firstMaxBy_eq_none {w : α → ℕ} {l : List α} :
    firstMaxBy w l = none ↔ l = [] := by
  cases l with
  | nil => simp [firstMaxBy]
  | cons a l =>
    simp only [firstMaxBy]
    constructor
    · intro h
      cases hl : firstMaxBy w l with
      | none => rw [hl] at h; simp at h
      | some b =>
        rw [hl] at h
        by_cases hc : w b ≤ w a <;> simp [hc] at h
    · intro h; exact absurd h (by simp)

theorem firstMaxBy_mem {w : α → ℕ} {l : List α} {a : α}
    (h : firstMaxBy w l = some a) : a ∈ l := by
  induction l with
  | nil => simp [firstMaxBy] at h
  | cons b l ih =>
    rw [firstMaxBy] at h
    match hl : firstMaxBy w l with
    | none => rw [hl] at h; simp at h; simp [h]
    | some c =>
      rw [hl] at h
      by_cases hc : w c ≤ w b
      · simp [hc] at h; simp [h]
      · simp [hc] at h; subst h; exact List.mem_cons_of_mem _ (ih hl)

theorem firstMaxBy_ge {w : α → ℕ} {l : List α} {a : α}
    (h : firstMaxBy w l = some a) : ∀ x ∈ l, w x ≤ w a := by
  induction l generalizing a with
  | nil => simp [firstMaxBy] at h
  | cons b l ih =>
    rw [firstMaxBy] at h
    intro x hx
    cases hl : firstMaxBy w l with
    | none =>
      rw [hl] at h
      simp only [Option.some.injEq] at h
      rw [firstMaxBy_eq_none.mp hl] at hx
      simp at hx
      subst hx; subst h; exact le_refl _
    | some c =>
      rw [hl] at h
      by_cases hcb : w c ≤ w b
      · simp [hcb] at h
        subst h
        rcases List.mem_cons.mp hx with rfl | hx'
        · exact le_refl _
        · exact le_trans (ih hl x hx') hcb
      · simp [hcb] at h
        subst h
        rcases List.mem_cons.mp hx with rfl | hx'
        · exact le_of_lt (not_le.mp hcb)
        · exact ih hl x hx'

theorem firstMaxBy_first {w : α → ℕ} {l : List α} {a : α}
    (h : firstMaxBy w l = some a) :
    ∃ l1 l2, l = l1 ++ a :: l2 ∧ ∀ x ∈ l1, w x < w a := by
  induction l generalizing a with
  | nil => simp [firstMaxBy] at h
  | cons b l ih =>
    rw [firstMaxBy] at h
    cases hl : firstMaxBy w l with
    | none =>
      rw [hl] at h
      simp only [Option.some.injEq] at h
      subst h
      exact ⟨[], l, rfl, by simp⟩
    | some c =>
      rw [hl] at h
      by_cases hcb : w c ≤ w b
      · simp [hcb] at h
        subst h
        exact ⟨[], l, rfl, by simp⟩
      · simp [hcb] at h
        subst h
        obtain ⟨l1, l2, hdec, hstrict⟩ := ih hl
        refine ⟨b :: l1, l2, by rw [hdec]; rfl, ?_⟩
        intro x hx
        rcases List.mem_cons.mp hx with rfl | hx'
        · exact not_le.mp hcb
        · exact hstrict x hx'

theorem buildTree_eq_leaf {feats : List ℕ} {S : List Sample}
    (h : bestSplit S feats = none) :
    buildTree feats S = .leaf (majorityLabel (S.map Sample.label)) := by
  rw [buildTree.eq_def]
  split
  · rfl
  · rename_i f t heq
    rw [h] at heq
    exact absurd heq (by simp)

theorem buildTree_eq_internal {feats : List ℕ} {S : List Sample} {f : ℕ} {t : ℚ}
    (h : bestSplit S feats = some (f, t)) :
    buildTree feats S = .internal f t (buildTree feats (splitLeft S f t))
      (buildTree feats (splitRight S f t)) := by
  rw [buildTree.eq_def]
  split
  · rename_i heq
    rw [h] at heq
    exact absurd heq (by simp)
  · rename_i f' t' heq
    rw [h] at heq
    have h2 : f = f' ∧ t = t' := Prod.mk.injEq _ _ _ _ ▸ Option.some.inj heq
    obtain ⟨rfl, rfl⟩ := (⟨h2.1.symm, h2.2.symm⟩ : f' = f ∧ t' = t)
    rfl

theorem majorityLabel_mem {ls : List ℕ} (h : ls ≠ []) : majorityLabel ls ∈ ls := by
  rw [majorityLabel]
  cases hm : firstMaxBy (fun c => ls.count c) (ls.dedup.insertionSort (· ≤ ·)) with
  | none =>
    exfalso
    have hnil := firstMaxBy_eq_none.mp hm
    have : ls.dedup = [] := by
      have hp := List.perm_insertionSort (· ≤ ·) ls.dedup
      rw [hnil] at hp
      exact hp.symm.eq_nil
    exact h ((List.dedup_eq_nil ls).mp this)
  | some c =>
    have hc := firstMaxBy_mem hm
    rw [(List.perm_insertionSort _ _).mem_iff, List.mem_dedup] at hc
    simpa using hc

theorem mem_map_label_of_mem_filter {S : List Sample} {p : Sample → Bool} {l : ℕ}
    (h : l ∈ (S.filter p).map Sample.label) : l ∈ S.map Sample.label := by
  rw [List.mem_map] at h ⊢
  obtain ⟨s, hs, rfl⟩ := h
  exact ⟨s, (List.mem_filter.mp hs).1, rfl⟩

theorem leafLabels_buildTree_subset (feats : List ℕ) :
    ∀ S : List Sample, S ≠ [] →
      ∀ l ∈ leafLabels (buildTree feats S), l ∈ S.map Sample.label := by
  have main : ∀ n, ∀ S : List Sample, S.length = n → S ≠ [] →
      ∀ l ∈ leafLabels (buildTree feats S), l ∈ S.map Sample.label := by
    intro n
    induction n using Nat.strong_induction_on with
    | _ n ih =>
      intro S hlen hne l hl
      cases hsplit : bestSplit S feats with
      | none =>
        rw [buildTree_eq_leaf hsplit, leafLabels] at hl
        simp only [List.mem_singleton] at hl
        subst hl
        exact majorityLabel_mem (by simpa using hne)
      | some ft =>
        obtain ⟨f, t⟩ := ft
        rw [buildTree_eq_internal hsplit, leafLabels, List.mem_append] at hl
        have hmem := bestSplit_mem_candidates hsplit
        have hshr := bestSplit_shrinks hsplit
        rcases hl with hL | hR
        · have := ih (splitLeft S f t).length (hlen ▸ hshr.1) (splitLeft S f t)
            rfl (splitLeft_ne_nil hmem) l hL
          exact mem_map_label_of_mem_filter this
        · have := ih (splitRight S f t).length (hlen ▸ hshr.2) (splitRight S f t)
            rfl (splitRight_ne_nil hmem) l hR
          exact mem_map_label_of_mem_filter this
  exact fun S => main S.length S rfl

theorem giniImpurity_eq_finset (ls : List ℕ) :
    giniImpurity ls = 1 - ∑ c ∈ ls.toFinset, ((ls.count c : ℚ) / ls.length) ^ 2 := by
  have hdf : ls.dedup.toFinset = ls.toFinset := by
    ext a
    simp
  rw [giniImpurity, ← hdf, List.sum_toFinset _ ls.nodup_dedup]

theorem bestSplit_eq_none_of_few_labels {S : List Sample} (feats : List ℕ)
    (h : (S.map Sample.label).dedup.length ≤ 1) : bestSplit S feats = none := by
  rw [bestSplit, if_pos (Or.inr h)]

theorem candThresholds_sorted (S : List Sample) (f : ℕ) :
    (candThresholds S f).Sorted (· < ·) := by
  rw [candThresholds]
  have hs : (((S.map (fun s => featVal s f)).dedup).insertionSort (· ≤ ·)).Sorted (· < ·) :=
    (List.sorted_insertionSort _ _).lt_of_le
      ((List.perm_insertionSort _ _).nodup_iff.mpr (S.map (fun s => featVal s f)).nodup_dedup)
  exact hs.filter _

theorem candidates_pairwise (S : List Sample) (feats : List ℕ) :
    (candidates S feats).Pairwise
      (fun a b => a.1 < b.1 ∨ (a.1 = b.1 ∧ a.2 < b.2)) := by
  rw [candidates]
  have houter : (feats.dedup.insertionSort (· ≤ ·)).Sorted (· < ·) :=
    (List.sorted_insertionSort _ _).lt_of_le
      ((List.perm_insertionSort _ _).nodup_iff.mpr feats.nodup_dedup)
  generalize feats.dedup.insertionSort (· ≤ ·) = L at houter
  induction L with
  | nil => simp
  | cons f fs ih =>
    rw [List.flatMap_cons, List.pairwise_append]
    obtain ⟨hhead, htail⟩ := List.sorted_cons.mp houter
    refine ⟨?_, ih htail, ?_⟩
    · exact List.Pairwise.map _ (fun a b hab => Or.inr ⟨rfl, hab⟩)
        (candThresholds_sorted S f)
    · intro a ha b hb
      obtain ⟨t, _, rfl⟩ := List.mem_map.mp ha
      obtain ⟨g, hg, hbg⟩ := List.mem_flatMap.mp hb
      obtain ⟨t', _, rfl⟩ := List.mem_map.mp hbg
      exact Or.inl (hhead g hg)

theorem countP_zip_eq_sum (yt : List ℕ) :
    ∀ yp : List ℕ, yt.length = yp.length →
      (((yt.zip yp).countP (fun p => p.1 == p.2) : ℚ)) =
        ∑ i ∈ Finset.range yt.length,
          if yt.getD i 0 = yp.getD i 0 then (1 : ℚ) else 0 := by
  induction yt with
  | nil => intro yp h; simp
  | cons a yt ih =>
    intro yp h
    cases yp with
    | nil => simp at h
    | cons b yp =>
      simp only [List.length_cons, Nat.succ.injEq] at h
      rw [List.zip_cons_cons, List.countP_cons, List.length_cons,
        Finset.sum_range_succ']
      simp only [List.getD_cons_succ, List.getD_cons_zero]
      rw [Nat.cast_add, ih yp h]
      by_cases hab : a = b
      · simp [hab]
      · simp [hab]

theorem zip_self_countP_eq (l : List ℕ) :
    (l.zip l).countP (fun p => p.1 == p.2) = l.length := by
  induction l with
  | nil => rfl
  | cons a l ih => rw [List.zip_cons_cons, List.countP_cons]; simp [ih]

theorem accuracy_self {yt : List ℕ} (h : yt ≠ []) : accuracy yt yt = 1 := by
  rw [accuracy, zip_self_countP_eq]
  have hne : yt.length ≠ 0 := Nat.pos_iff_ne_zero.mp (List.length_pos.mpr h)
  have : (yt.length : ℚ) ≠ 0 := by exact_mod_cast hne
  field_simp

theorem accuracy_nonneg (yt yp : List ℕ) : 0 ≤ accuracy yt yp := by
  rw [accuracy]
  positivity

theorem accuracy_le_one (yt yp : List ℕ) : accuracy yt yp ≤ 1 := by
  rw [accuracy]
  rcases Nat.eq_zero_or_pos yt.length with h | h
  · simp [h]
  · rw [div_le_one (by exact_mod_cast h)]
    have hle : (yt.zip yp).countP (fun p => p.1 == p.2) ≤ yt.length :=
      le_trans (List.countP_le_length _) (by rw [List.length_zip]; omega)
    exact_mod_cast hle

theorem precisionOf_nonneg (yt yp : List ℕ) (c : ℕ) : 0 ≤ precisionOf yt yp c := by
  rw [precisionOf]
  split
  · exact le_refl 0
  · positivity

theorem precisionOf_le_one (yt yp : List ℕ) (c : ℕ) : precisionOf yt yp c ≤ 1 := by
  rw [precisionOf]
  split
  · exact zero_le_one
  · rename_i hne
    rw [div_le_one (by exact_mod_cast Nat.pos_of_ne_zero hne)]
    exact_mod_cast Nat.le_add_right _ _

theorem recallOf_nonneg (yt yp : List ℕ) (c : ℕ) : 0 ≤ recallOf yt yp c := by
  rw [recallOf]
  split
  · exact le_refl 0
  · positivity

theorem recallOf_le_one (yt yp : List ℕ) (c : ℕ) : recallOf yt yp c ≤ 1 := by
  rw [recallOf]
  split
  · exact zero_le_one
  · rename_i hne
    rw [div_le_one (by exact_mod_cast Nat.pos_of_ne_zero hne)]
    exact_mod_cast Nat.le_add_right _ _

theorem f1Of_nonneg (yt yp : List ℕ) (c : ℕ) : 0 ≤ f1Of yt yp c := by
  rw [f1Of]
  split
  · exact le_refl 0
  · rename_i hne
    have hp := precisionOf_nonneg yt yp c
    have hr := recallOf_nonneg yt yp c
    have hd : 0 < precisionOf yt yp c + recallOf yt yp c :=
      lt_of_le_of_ne (by linarith) (Ne.symm hne)
    positivity

theorem f1Of_le_one (yt yp : List ℕ) (c : ℕ) : f1Of yt yp c ≤ 1 := by
  rw [f1Of]
  split
  · exact zero_le_one
  · rename_i hne
    have hp0 := precisionOf_nonneg yt yp c
    have hp1 := precisionOf_le_one yt yp c
    have hr0 := recallOf_nonneg yt yp c
    have hr1 := recallOf_le_one yt yp c
    have hd : 0 < precisionOf yt yp c + recallOf yt yp c :=
      lt_of_le_of_ne (by linarith) (Ne.symm hne)
    rw [div_le_one hd]
    nlinarith

theorem meanF1_nonneg (yt yp : List ℕ) : 0 ≤ meanF1 yt yp := by
  rw [meanF1]
  have hs : 0 ≤ (((yt ++ yp).dedup.map (f1Of yt yp)).sum) :=
    List.sum_nonneg (by
      intro x hx
      obtain ⟨c, _, rfl⟩ := List.mem_map.mp hx
      exact f1Of_nonneg yt yp c)
  positivity

theorem meanF1_le_one (yt yp : List ℕ) : meanF1 yt yp ≤ 1 := by
  rw [meanF1]
  set cs := (yt ++ yp).dedup with hcs
  rcases Nat.eq_zero_or_pos cs.length with h | h
  · rw [List.length_eq_zero.mp h]
    simp
  · have hlen : (0 : ℚ) < cs.length := by exact_mod_cast h
    rw [div_le_one hlen]
    have hmap : (cs.map (f1Of yt yp)).sum ≤ (cs.map (f1Of yt yp)).length • (1 : ℚ) :=
      List.sum_le_card_nsmul _ 1 (by
        intro x hx
        obtain ⟨c, _, rfl⟩ := List.mem_map.mp hx
        exact f1Of_le_one yt yp c)
    rw [List.length_map] at hmap
    calc (cs.map (f1Of yt yp)).sum ≤ cs.length • (1 : ℚ) := hmap
    _ = cs.length := by simp

theorem tpOf_self (yt : List ℕ) (c : ℕ) : tpOf yt yt c = yt.count c := by
  rw [tpOf, List.count]
  induction yt with
  | nil => rfl
  | cons a yt ih =>
    rw [List.zip_cons_cons, List.countP_cons, List.countP_cons, ih]
    by_cases hac : a = c <;> simp [hac]

theorem fpOf_self (yt : List ℕ) (c : ℕ) : fpOf yt yt c = 0 := by
  rw [fpOf]
  induction yt with
  | nil => rfl
  | cons a yt ih =>
    rw [List.zip_cons_cons, List.countP_cons, ih]
    by_cases hac : a = c <;> simp [hac]

theorem fnOf_self (yt : List ℕ) (c : ℕ) : fnOf yt yt c = 0 := by
  rw [fnOf]
  induction yt with
  | nil => rfl
  | cons a yt ih =>
    rw [List.zip_cons_cons, List.countP_cons, ih]
    by_cases hac : a = c <;> simp [hac]

theorem f1Of_self {yt : List ℕ} {c : ℕ} (h : c ∈ yt) : f1Of yt yt c = 1 := by
  have htp : 0 < yt.count c := List.count_pos_iff.mpr h
  have hprec : precisionOf yt yt c = 1 := by
    rw [precisionOf, tpOf_self, fpOf_self]
    rw [if_neg (by omega)]
    have : (yt.count c : ℚ) ≠ 0 := by exact_mod_cast Nat.pos_iff_ne_zero.mp htp
    field_simp
  have hrec : recallOf yt yt c = 1 := by
    rw [recallOf, tpOf_self, fnOf_self]
    rw [if_neg (by omega)]
    have : (yt.count c : ℚ) ≠ 0 := by exact_mod_cast Nat.pos_iff_ne_zero.mp htp
    field_simp
  rw [f1Of, hprec, hrec]
  norm_num

theorem meanF1_self {yt : List ℕ} (h : yt ≠ []) : meanF1 yt yt = 1 := by
  rw [meanF1]
  set cs := (yt ++ yt).dedup with hcs
  have hcs_ne : cs ≠ [] := by
    rw [hcs]
    intro hnil
    have happ : yt ++ yt = [] := (List.dedup_eq_nil _).mp hnil
    exact h (List.append_eq_nil.mp happ).1
  have hall : ∀ x ∈ cs.map (f1Of yt yt), x = 1 := by
    intro x hx
    obtain ⟨c, hc, rfl⟩ := List.mem_map.mp hx
    apply f1Of_self
    rw [hcs, List.mem_dedup, List.mem_append] at hc
    rcases hc with hc | hc <;> exact hc
  have hsum : (cs.map (f1Of yt yt)).sum = (cs.map (f1Of yt yt)).length • (1 : ℚ) :=
    List.sum_eq_card_nsmul _ 1 hall
  rw [hsum, List.length_map]
  have hne : cs.length ≠ 0 := Nat.pos_iff_ne_zero.mp (List.length_pos.mpr hcs_ne)
  have : (cs.length : ℚ) ≠ 0 := by exact_mod_cast hne
  field_simp

theorem meanF1_eq_finset (yt yp : List ℕ) :
    meanF1 yt yp =
      (∑ c ∈ yt.toFinset ∪ yp.toFinset, f1Of yt yp c)
        / (yt.toFinset ∪ yp.toFinset).card := by
  rw [meanF1, ← List.toFinset_append,
    ← List.sum_toFinset _ (yt ++ yp).nodup_dedup, List.card_toFinset]
  have hdf : (yt ++ yp).dedup.toFinset = (yt ++ yp).toFinset := by
    ext a
    simp
  rw [hdf]

theorem sampleWithReplacement_lt {n : ℕ} (hn : 0 < n) :
    ∀ k s, ∀ i ∈ (sampleWithReplacement k n s).1, i < n := by
  intro k
  induction k with
  | zero => intro s i hi; simp [sampleWithReplacement] at hi
  | succ k ih =>
    intro s i hi
    have hi2 : i ∈ (drawNat s n).1 :: (sampleWithReplacement k n (drawNat s n).2).1 := hi
    rcases List.mem_cons.mp hi2 with h0 | hi'
    · rw [h0]
      exact Nat.mod_lt _ hn
    · exact ih _ i hi'

theorem resample_subset {data : List Sample} {idxs : List ℕ}
    (h : ∀ i ∈ idxs, i < data.length) :
    ∀ x ∈ resample data idxs, x ∈ data := by
  intro x hx
  rw [resample, List.mem_map] at hx
  obtain ⟨i, hi, rfl⟩ := hx
  have hil : i < data.length := h i hi
  rw [List.getD_eq_getElem data ⟨[], 0⟩ hil]
  exact List.getElem_mem hil

theorem resample_length (data : List Sample) (idxs : List ℕ) :
    (resample data idxs).length = idxs.length := by
  rw [resample, List.length_map]

theorem sampleWithReplacement_length (k n s : ℕ) :
    (sampleWithReplacement k n s).1.length = k := by
  induction k generalizing s with
  | zero => rfl
  | succ k ih => rw [sampleWithReplacement]; simp [ih]

theorem predict_mem_leafLabels (n : Node) (x : List ℚ) :
    predict n x ∈ leafLabels n := by
  induction n with
  | leaf l => simp [predict, leafLabels]
  | internal f t L R ihL ihR =>
    rw [predict, leafLabels]
    by_cases h : x.getD f 0 ≤ t
    · rw [if_pos h]; exact List.mem_append_left _ ihL
    · rw [if_neg h]; exact List.mem_append_right _ ihR

theorem buildTreeRand_fst_leaf {numFeats m : ℕ} {S : List Sample} {s : ℕ}
    (h : bestSplit S (sampleSubset m (List.range numFeats) s).1 = none) :
    (buildTreeRand numFeats m S s).1 = .leaf (majorityLabel (S.map Sample.label)) := by
  rw [buildTreeRand.eq_def]
  split
  · rfl
  · rename_i f t heq
    rw [h] at heq
    exact absurd heq (by simp)

theorem buildTreeRand_fst_internal {numFeats m : ℕ} {S : List Sample} {s : ℕ}
    {f : ℕ} {t : ℚ}
    (h : bestSplit S (sampleSubset m (List.range numFeats) s).1 = some (f, t)) :
    (buildTreeRand numFeats m S s).1
      = .internal f t
          (buildTreeRand numFeats m (splitLeft S f t)
            (sampleSubset m (List.range numFeats) s).2).1
          (buildTreeRand numFeats m (splitRight S f t)
            (buildTreeRand numFeats m (splitLeft S f t)
              (sampleSubset m (List.range numFeats) s).2).2).1 := by
  rw [buildTreeRand.eq_def]
  split
  · rename_i heq
    rw [h] at heq
    exact absurd heq (by simp)
  · rename_i f' t' heq
    rw [h] at heq
    have h2 : f = f' ∧ t = t' := Prod.mk.injEq _ _ _ _ ▸ Option.some.inj heq
    obtain ⟨rfl, rfl⟩ := (⟨h2.1.symm, h2.2.symm⟩ : f' = f ∧ t' = t)
    rfl

theorem leafLabels_buildTreeRand_subset (numFeats m : ℕ) :
    ∀ S : List Sample, ∀ s : ℕ, S ≠ [] →
      ∀ l ∈ leafLabels (buildTreeRand numFeats m S s).1, l ∈ S.map Sample.label := by
  have main : ∀ n, ∀ S : List Sample, S.length = n → ∀ s : ℕ, S ≠ [] →
      ∀ l ∈ leafLabels (buildTreeRand numFeats m S s).1, l ∈ S.map Sample.label := by
    intro n
    induction n using Nat.strong_induction_on with
    | _ n ih =>
      intro S hlen s hne l hl
      cases hsplit : bestSplit S (sampleSubset m (List.range numFeats) s).1 with
      | none =>
        rw [buildTreeRand_fst_leaf hsplit, leafLabels] at hl
        simp only [List.mem_singleton] at hl
        subst hl
        exact majorityLabel_mem (by simpa using hne)
      | some ft =>
        obtain ⟨f, t⟩ := ft
        rw [buildTreeRand_fst_internal hsplit, leafLabels, List.mem_append] at hl
        have hmem := bestSplit_mem_candidates hsplit
        have hshr := bestSplit_shrinks hsplit
        rcases hl with hL | hR
        · have := ih (splitLeft S f t).length (hlen ▸ hshr.1) (splitLeft S f t)
            rfl _ (splitLeft_ne_nil hmem) l hL
          exact mem_map_label_of_mem_filter this
        · have := ih (splitRight S f t).length (hlen ▸ hshr.2) (splitRight S f t)
            rfl _ (splitRight_ne_nil hmem) l hR
          exact mem_map_label_of_mem_filter this
  exact fun S s => main S.length S rfl s

theorem trainTrees_leafLabels_subset (numFeats m : ℕ) {data : List Sample}
    (hdata : data ≠ []) :
    ∀ k s, ∀ tr ∈ (trainTrees numFeats m data k s).1,
      ∀ l ∈ leafLabels tr, l ∈ data.map Sample.label := by
  intro k
  induction k with
  | zero => intro s tr htr; simp [trainTrees] at htr
  | succ k ih =>
    intro s tr htr l hl
    rw [trainTrees] at htr
    simp only [List.mem_cons] at htr
    have hlen : 0 < data.length := List.length_pos.mpr hdata
    rcases htr with rfl | htr'
    · have hboot_ne : resample data (sampleWithReplacement data.length data.length s).1 ≠ [] := by
        intro hnil
        have := resample_length data (sampleWithReplacement data.length data.length s).1
        rw [hnil, sampleWithReplacement_length] at this
        simp at this
        omega
      have hsub := leafLabels_buildTreeRand_subset numFeats m _ _ hboot_ne l hl
      rw [List.mem_map] at hsub ⊢
      obtain ⟨x, hx, rfl⟩ := hsub
      exact ⟨x, resample_subset (sampleWithReplacement_lt hlen _ _) x hx, rfl⟩
    · exact ih _ tr htr' l hl

theorem trainForest_votes_mem_classes (numFeats m k seed : ℕ)
    {data : List Sample} (hdata : data ≠ []) (x : List ℚ) :
    ∀ v ∈ (trainForest numFeats m k seed data).trees.map (fun n => predict n x),
      v ∈ (trainForest numFeats m k seed data).classes := by
  intro v hv
  rw [List.mem_map] at hv
  obtain ⟨tr, htr, rfl⟩ := hv
  have hlbl := trainTrees_leafLabels_subset numFeats m hdata k seed tr htr
    (predict tr x) (predict_mem_leafLabels tr x)
  show predict tr x ∈ (trainForest numFeats m k seed data).classes
  rw [trainForest]
  simp only []
  rw [(List.perm_insertionSort _ _).mem_iff, List.mem_dedup]
  exact hlbl

/-- C1: for every node subset of training samples, the splitter scores every
candidate (feature, threshold) pair by the weighted impurity
`(|L|/|S|)·Gini(L) + (|R|/|S|)·Gini(R)` with `Gini(S) = 1 - Σ_c p_c²`
(`p_c` the fraction of class `c`), and whenever it returns a split, that
split is a candidate with minimal weighted impurity; the candidate list is
strictly increasing in (feature index, threshold) lexicographic order, and
every candidate strictly before the returned one scores strictly worse, so
ties are broken by the first-encountered candidate (feature index
ascending, then threshold ascending). -/
theorem c1_splitter_minimizes_weighted_gini
    (S : List Sample) (feats : List ℕ) (f : ℕ) (t : ℚ)
    (h : bestSplit S feats = some (f, t)) :
    (∀ ls : List ℕ, giniImpurity ls
        = 1 - ∑ c ∈ ls.toFinset, ((ls.count c : ℚ) / ls.length) ^ 2) ∧
    weightedGini S f t
        = ((splitLeft S f t).length : ℚ) / S.length
            * giniImpurity ((splitLeft S f t).map Sample.label)
          + ((splitRight S f t).length : ℚ) / S.length
            * giniImpurity ((splitRight S f t).map Sample.label) ∧
    (f, t) ∈ candidates S feats ∧
    (∀ c ∈ candidates S feats, weightedGini S f t ≤ weightedGini S c.1 c.2) ∧
    (candidates S feats).Pairwise
      (fun a b => a.1 < b.1 ∨ (a.1 = b.1 ∧ a.2 < b.2)) ∧
    ∃ pre post, candidates S feats = pre ++ (f, t) :: post ∧
      ∀ c ∈ pre, weightedGini S f t < weightedGini S c.1 c.2 := by
  have hfm : firstMinBy (fun c => weightedGini S c.1 c.2) (candidates S feats)
      = some (f, t) := by
    rw [bestSplit] at h
    split at h
    · exact absurd h (by simp)
    · exact h
  refine ⟨giniImpurity_eq_finset, rfl, bestSplit_mem_candidates h, ?_, candidates_pairwise S feats, ?_⟩
  · intro c hc
    exact firstMinBy_le hfm c hc
  · obtain ⟨pre, post, hdec, hstrict⟩ := firstMinBy_first hfm
    exact ⟨pre, post, hdec, hstrict⟩

theorem c1_splitter_minimizes_weighted_gini_witness :
    bestSplit [⟨[0], 0⟩, ⟨[1], 1⟩] [0] = some (0, 0) ∧
    ((0 : ℕ), (0 : ℚ)) ∈ candidates [⟨[0], 0⟩, ⟨[1], 1⟩] [0] :=
  ⟨by decide,
    (c1_splitter_minimizes_weighted_gini [⟨[0], 0⟩, ⟨[1], 1⟩] [0] 0 0
      (by decide)).2.2.1⟩

/-- C2: prediction on a tree traverses from the root, going left at an
internal node exactly when the feature value at the split index is at most
the threshold and right otherwise, and returns the reached leaf's label;
prediction on a forest with a nonempty class list returns a class whose
vote count among the member trees' individual predictions is maximal, and
every class strictly earlier in the class ordering has a strictly smaller
vote count (so ties go to the lowest class index); the class ordering
established at training time is the ascending sorted list of the distinct
training labels, and on nonempty training data every member tree's vote is
one of those classes. -/
theorem c2_predict_traversal_and_majority (F : Forest) (x : List ℚ)
    (hcls : F.classes ≠ []) :
    (∀ l, predict (Node.leaf l) x = l) ∧
    (∀ f t L R, predict (Node.internal f t L R) x
        = if x.getD f 0 ≤ t then predict L x else predict R x) ∧
    forestPredict F x ∈ F.classes ∧
    (∀ c ∈ F.classes,
      (F.trees.map (fun n => predict n x)).count c
        ≤ (F.trees.map (fun n => predict n x)).count (forestPredict F x)) ∧
    (∃ pre post, F.classes = pre ++ forestPredict F x :: post ∧
      ∀ c ∈ pre,
        (F.trees.map (fun n => predict n x)).count c
          < (F.trees.map (fun n => predict n x)).count (forestPredict F x)) ∧
    (∀ numFeats m k seed data,
      (trainForest numFeats m k seed data).classes
        = ((data.map Sample.label).dedup).insertionSort (· ≤ ·)) ∧
    (∀ numFeats m k seed data,
      (trainForest numFeats m k seed data).classes.Sorted (· ≤ ·)) ∧
    (∀ numFeats m k seed (data : List Sample) (y : List ℚ), data ≠ [] →
      ∀ v ∈ (trainForest numFeats m k seed data).trees.map (fun n => predict n y),
        v ∈ (trainForest numFeats m k seed data).classes) := by
  have hmid : forestPredict F x ∈ F.classes ∧
      (∀ c ∈ F.classes,
        (F.trees.map (fun n => predict n x)).count c
          ≤ (F.trees.map (fun n => predict n x)).count (forestPredict F x)) ∧
      ∃ pre post, F.classes = pre ++ forestPredict F x :: post ∧
        ∀ c ∈ pre,
          (F.trees.map (fun n => predict n x)).count c
            < (F.trees.map (fun n => predict n x)).count (forestPredict F x) := by
    cases hm : firstMaxBy (fun c => (F.trees.map (fun n => predict n x)).count c)
        F.classes with
    | none => exact absurd (firstMaxBy_eq_none.mp hm) hcls
    | some mm =>
      have hres : forestPredict F x = mm := by
        rw [forestPredict, hm]
        rfl
      rw [hres]
      exact ⟨firstMaxBy_mem hm, firstMaxBy_ge hm, firstMaxBy_first hm⟩
  refine ⟨fun l => rfl, fun f t L R => rfl, hmid.1, hmid.2.1, hmid.2.2,
    fun _ _ _ _ _ => rfl, fun _ _ _ _ data => List.sorted_insertionSort _ _,
    fun numFeats m k seed data y hd =>
      trainForest_votes_mem_classes numFeats m k seed hd y⟩

theorem c2_predict_traversal_and_majority_witness :
    (Forest.mk [Node.leaf 1, Node.leaf 0, Node.leaf 1] [0, 1]).classes ≠ [] ∧
    forestPredict (Forest.mk [Node.leaf 1, Node.leaf 0, Node.leaf 1] [0, 1]) []
      ∈ (Forest.mk [Node.leaf 1, Node.leaf 0, Node.leaf 1] [0, 1]).classes :=
  ⟨by decide,
    (c2_predict_traversal_and_majority
      (Forest.mk [Node.leaf 1, Node.leaf 0, Node.leaf 1] [0, 1]) []
      (by decide)).2.2.1⟩

/-- C3: forest training is a pure function of the seed and the training
data, so two runs with the same seed and the same data produce identical
forests, and those forests produce identical predictions on every input
vector. -/
theorem c3_same_seed_same_data_determinism
    (numFeats m k seed : ℕ) (data : List Sample) (F1 F2 : Forest)
    (h1 : F1 = trainForest numFeats m k seed data)
    (h2 : F2 = trainForest numFeats m k seed data) :
    F1 = F2 ∧ ∀ x, forestPredict F1 x = forestPredict F2 x := by
  subst h1
  subst h2
  exact ⟨rfl, fun _ => rfl⟩

theorem c3_same_seed_same_data_determinism_witness :
    trainForest 1 1 1 0 [⟨[0], 0⟩] = trainForest 1 1 1 0 [⟨[0], 0⟩] ∧
    ∀ x, forestPredict (trainForest 1 1 1 0 [⟨[0], 0⟩]) x
      = forestPredict (trainForest 1 1 1 0 [⟨[0], 0⟩]) x :=
  c3_same_seed_same_data_determinism 1 1 1 0 [⟨[0], 0⟩] _ _ rfl rfl

/-- C4: for equal-length label sequences, accuracy equals the number of
positions where they match divided by `N`, and each per-class precision,
recall and F1 follows the spec's formula (0 when the denominator is 0),
with the macro F1 equal to the mean of `F1_c` over the classes present in
`y_true ∪ y_pred`. -/
theorem c4_metric_definitions (yt yp : List ℕ) (h : yt.length = yp.length) :
    accuracy yt yp
        = (∑ i ∈ Finset.range yt.length,
            if yt.getD i 0 = yp.getD i 0 then (1 : ℚ) else 0) / yt.length ∧
    (∀ c, precisionOf yt yp c
        = if tpOf yt yp c + fpOf yt yp c = 0 then 0
          else (tpOf yt yp c : ℚ) / (tpOf yt yp c + fpOf yt yp c)) ∧
    (∀ c, recallOf yt yp c
        = if tpOf yt yp c + fnOf yt yp c = 0 then 0
          else (tpOf yt yp c : ℚ) / (tpOf yt yp c + fnOf yt yp c)) ∧
    (∀ c, f1Of yt yp c
        = if precisionOf yt yp c + recallOf yt yp c = 0 then 0
          else 2 * precisionOf yt yp c * recallOf yt yp c
            / (precisionOf yt yp c + recallOf yt yp c)) ∧
    meanF1 yt yp
        = (∑ c ∈ yt.toFinset ∪ yp.toFinset, f1Of yt yp c)
            / (yt.toFinset ∪ yp.toFinset).card := by
  refine ⟨?_, fun c => rfl, fun c => rfl, fun c => rfl, meanF1_eq_finset yt yp⟩
  rw [accuracy, countP_zip_eq_sum yt yp h]

theorem c4_metric_definitions_witness :
    ([0, 1] : List ℕ).length = ([0, 0] : List ℕ).length ∧
    accuracy [0, 1] [0, 0]
      = (∑ i ∈ Finset.range 2,
          if ([0, 1] : List ℕ).getD i 0 = ([0, 0] : List ℕ).getD i 0
          then (1 : ℚ) else 0) / 2 :=
  ⟨rfl, (c4_metric_definitions [0, 1] [0, 0] rfl).1⟩

/-- C5: for every nonempty training subset, every leaf label of the built
tree occurs among the training labels, and a subset with at most one
distinct label immediately becomes a leaf (labeled with its majority
label), with no further splitting. -/
theorem c5_leaf_label_invariant (feats : List ℕ) (S : List Sample)
    (h : S ≠ []) :
    (∀ l ∈ leafLabels (buildTree feats S), l ∈ S.map Sample.label) ∧
    ((S.map Sample.label).dedup.length ≤ 1 →
      buildTree feats S = Node.leaf (majorityLabel (S.map Sample.label))) :=
  ⟨leafLabels_buildTree_subset feats S h,
    fun hle => buildTree_eq_leaf (bestSplit_eq_none_of_few_labels feats hle)⟩

theorem c5_leaf_label_invariant_witness :
    ([(⟨[0], 5⟩ : Sample)] ≠ []) ∧
    buildTree [0] [(⟨[0], 5⟩ : Sample)]
      = Node.leaf (majorityLabel ([(⟨[0], 5⟩ : Sample)].map Sample.label)) :=
  ⟨by decide, (c5_leaf_label_invariant [0] [(⟨[0], 5⟩ : Sample)] (by decide)).2
    (by decide)⟩

/-- C6: a categorical value not seen while fitting the one-hot encoder is
encoded as all-zero indicator columns, of the same width as the fitted
category list, and the encoding is a total function (no error). -/
theorem c6_unseen_category_all_zero (train : List String) (v : String)
    (h : v ∉ train) :
    encodeOHE (fitOHE train) v = List.replicate (fitOHE train).length 0 ∧
    (encodeOHE (fitOHE train) v).length = (fitOHE train).length := by
  have hne : ∀ c ∈ fitOHE train, ¬(c = v) := by
    intro c hc hcv
    rw [fitOHE, List.mem_dedup] at hc
    exact h (hcv ▸ hc)
  constructor
  · rw [encodeOHE]
    rw [List.eq_replicate_iff]
    refine ⟨List.length_map _ _, ?_⟩
    intro b hb
    obtain ⟨c, hc, rfl⟩ := List.mem_map.mp hb
    rw [if_neg (hne c hc)]
  · rw [encodeOHE, List.length_map]

theorem c6_unseen_category_all_zero_witness :
    ("b" ∉ ["a"]) ∧
    encodeOHE (fitOHE ["a"]) "b" = List.replicate (fitOHE ["a"]).length 0 :=
  ⟨by decide, (c6_unseen_category_all_zero ["a"] "b" (by decide)).1⟩

/-- C7: the recursive tree builder terminates on every input: whenever the
splitter returns a split, the left and right partitions are strictly
smaller than (and together exactly partition) the node's sample subset,
and the total function `buildTree` satisfies its recursion equation there;
when no split is returned the node is a leaf. -/
theorem c7_builder_terminates (feats : List ℕ) (S : List Sample) (f : ℕ)
    (t : ℚ) (h : bestSplit S feats = some (f, t)) :
    (splitLeft S f t).length < S.length ∧
    (splitRight S f t).length < S.length ∧
    (splitLeft S f t).length + (splitRight S f t).length = S.length ∧
    buildTree feats S
      = Node.internal f t (buildTree feats (splitLeft S f t))
          (buildTree feats (splitRight S f t)) :=
  ⟨(bestSplit_shrinks h).1, (bestSplit_shrinks h).2,
    splitLeft_length_add_splitRight_length S f t, buildTree_eq_internal h⟩

theorem c7_builder_terminates_witness :
    bestSplit [⟨[0], 0⟩, ⟨[1], 1⟩] [0] = some (0, 0) ∧
    (splitLeft [⟨[0], 0⟩, ⟨[1], 1⟩] 0 0).length
      < ([⟨[0], 0⟩, ⟨[1], 1⟩] : List Sample).length :=
  ⟨by decide,
    (c7_builder_terminates [0] [⟨[0], 0⟩, ⟨[1], 1⟩] 0 0 (by decide)).1⟩

/-- C8: for every numeric feature, standardization subtracts the
training-column mean and divides by the training-column standard
deviation (the square root of the training variance, the square root
being abstracted as a parameter since it is not rational); the parameters
are fixed at fit time and the identical parameters are applied unchanged
when transforming the test column. -/
theorem c8_scaler_fixed_parameters (sqrtFn : ℚ → ℚ) (train test : List ℚ) :
    (fitScaler sqrtFn train).mean = listMean train ∧
    (fitScaler sqrtFn train).std = sqrtFn (listVar train) ∧
    transformCol (fitScaler sqrtFn train) train
      = train.map (fun x => (x - listMean train) / sqrtFn (listVar train)) ∧
    transformCol (fitScaler sqrtFn train) test
      = test.map (fun x => (x - listMean train) / sqrtFn (listVar train)) :=
  ⟨rfl, rfl, rfl, rfl⟩

/-- C9 counterexample: at the concrete input `y_true = y_pred = []` (equal
lengths, and `y_pred` equals `y_true` element for element) both metrics
evaluate to 0, not to 1.0 as the claim requires. -/
theorem c9_bounds_counterexample :
    ([] : List ℕ).length = ([] : List ℕ).length ∧
    ([] : List ℕ) = ([] : List ℕ) ∧
    accuracy ([] : List ℕ) ([] : List ℕ) = 0 ∧
    meanF1 ([] : List ℕ) ([] : List ℕ) = 0 ∧
    ¬(accuracy ([] : List ℕ) ([] : List ℕ) = 1 ∧
      meanF1 ([] : List ℕ) ([] : List ℕ) = 1) := by
  have ha : accuracy ([] : List ℕ) ([] : List ℕ) = 0 := by norm_num [accuracy]
  have hm : meanF1 ([] : List ℕ) ([] : List ℕ) = 0 := by norm_num [meanF1]
  refine ⟨rfl, rfl, ha, hm, ?_⟩
  intro hcon
  rw [ha] at hcon
  exact absurd hcon.1 (by norm_num)

/-- C9 (amended: the equalities to 1.0 require the sequences to be
nonempty): for all equal-length label sequences, accuracy and macro F1
lie in the closed interval [0, 1], and both equal exactly 1 whenever
`y_pred` equals `y_true` element for element and the sequences are
nonempty. -/
theorem c9_metric_bounds (yt yp : List ℕ) (h : yt.length = yp.length) :
    0 ≤ accuracy yt yp ∧ accuracy yt yp ≤ 1 ∧
    0 ≤ meanF1 yt yp ∧ meanF1 yt yp ≤ 1 ∧
    (yp = yt → yt ≠ [] → accuracy yt yp = 1 ∧ meanF1 yt yp = 1) := by
  refine ⟨accuracy_nonneg yt yp, accuracy_le_one yt yp, meanF1_nonneg yt yp,
    meanF1_le_one yt yp, ?_⟩
  intro heq hne
  subst heq
  exact ⟨accuracy_self hne, meanF1_self hne⟩

theorem c9_metric_bounds_witness :
    ([0] : List ℕ).length = ([0] : List ℕ).length ∧
    accuracy [0] [0] = 1 ∧ meanF1 [0] [0] = 1 :=
  ⟨rfl, (c9_metric_bounds [0] [0] rfl).2.2.2.2 rfl (by decide)⟩

/-- C10: fitting the forest classifier a second time with the same
training data is idempotent: the refit model is identical to the model
after the first fit, and in particular produces identical predictions on
every input vector. -/
theorem c10_refit_idempotent (model : RFModel) (data : List Sample) :
    (model.fit data).fit data = model.fit data ∧
    ∀ x, ((model.fit data).fit data).predictWith x
      = (model.fit data).predictWith x :=
  ⟨rfl, fun _ => rfl⟩

end Week3
